import Mathlib

/-!
Verification of the core text-transformation routines of the
arxiv-latex-cleaner fork, shallowly embedded from
arxiv_latex_cleaner/arxiv_latex_cleaner.py.

Text is modelled as List Char.  The Python regular expressions used by the
source are translated into explicit character scans with the same
semantics on the inputs considered (ASCII text; the stems interpolated
into patterns by the reference closure contain no regex metacharacters,
as is the case for ordinary file names).  Mutable loops become structural
or fuel-indexed recursions; the fuel bounds given always exceed the number
of loop steps the Python code would take, as noted at each definition.
-/

/-- Decidable equality for the Except results used below. -/
instance exceptUnitListCharDecEq : DecidableEq (Except Unit (List Char)) := fun a b =>
  match a, b with
  | .error _, .error _ => isTrue rfl
  | .error _, .ok _ => isFalse fun h => Except.noConfusion h
  | .ok _, .error _ => isFalse fun h => Except.noConfusion h
  | .ok x, .ok y =>
    match decEq x y with
    | isTrue h => isTrue (by rw [h])
    | isFalse h => isFalse fun hc => h (Except.ok.inj hc)

/-- Python regex word character (ASCII range, which covers all inputs considered). -/
def wordChar (c : Char) : Bool := c.isAlpha || c.isDigit || c = '_'

/-- Python whitespace: the characters matched by the regex class backslash-s and
by str.isspace on ASCII text. -/
def spaceChar (c : Char) : Bool :=
  c = ' ' || c = '\t' || c = '\n' || c = '\x0b' || c = '\x0c' || c = '\r'

/-- Length of the maximal leading run of characters satisfying p. -/
def countLeading (p : Char → Bool) : List Char → Nat
  | [] => 0
  | c :: rest => if p c then countLeading p rest + 1 else 0

/-- First index at which sub occurs as a contiguous sub-list of l
(Python str.index / the guard of str.in). -/
def indexOfSub (l sub : List Char) : Option Nat :=
  (List.range (l.length + 1)).find? fun i => sub.isPrefixOf (l.drop i)

/-- Whether sub occurs as a contiguous sub-list of l (Python in). -/
def containsSub (l sub : List Char) : Bool :=
  (List.range (l.length + 1)).any fun i => sub.isPrefixOf (l.drop i)

/-!  ## _remove_comments_inline (arxiv_latex_cleaner.py lines 373-411)  -/

/-- Match of the auto-ignore pattern percent, whitespace run, auto-ignore
at the head of the given suffix (from the regex used at line 375). -/
def autoIgnoreHere (cs : List Char) : Bool :=
  match cs with
  | [] => false
  | c :: rest =>
    c = '%' && "auto-ignore".toList.isPrefixOf (rest.drop (countLeading spaceChar rest))

/-- Whether the auto-ignore pattern matches anywhere in the text
(regex.search at line 376). -/
def autoIgnoreFound : List Char → Bool
  | [] => false
  | c :: rest => autoIgnoreHere (c :: rest) || autoIgnoreFound rest

/-- regex.sub of the auto-ignore pattern by its first group (line 377): each
match keeps the marker part and drops the rest of the line.  Fuel-indexed
scan; fuel length+1 always suffices since each step consumes one character
or a nonempty match. -/
def autoIgnoreSubAux : Nat → List Char → List Char
  | 0, _ => []
  | _ + 1, [] => []
  | f + 1, c :: rest =>
    if autoIgnoreHere (c :: rest) then
      let n := countLeading spaceChar rest
      let keep := c :: (rest.take n ++ "auto-ignore".toList)
      let after := (rest.drop (n + 11))
      keep ++ autoIgnoreSubAux f (after.drop (countLeading (fun d => d != '\n') after))
    else c :: autoIgnoreSubAux f rest

/-- Whether the line, after stripping a leading run of spaces and then a run
of tabs, starts with the comment character (line 379). -/
def startsPctAfterStrip (cs : List Char) : Bool :=
  let a := cs.drop (countLeading (fun c => c = ' ') cs)
  let b := a.drop (countLeading (fun c => c = '\t') a)
  match b with
  | [] => false
  | c :: _ => c = '%'

/-- Length of a match of the url pattern at the head of cs, if any.  The
source pattern (line 382) uses an atomic group whose first alternative
consumes any non-brace character, so the pattern matches exactly a
backslash-url opening brace, a run of non-brace characters, and a closing
brace. -/
def urlMatchLen (cs : List Char) : Option Nat :=
  if "\\url\x7b".toList.isPrefixOf cs then
    let body := cs.drop 5
    let n := countLeading (fun c => c != '{' && c != '}') body
    if (body.drop n).headD ' ' = '}' && (body.drop n) ≠ [] then some (5 + n + 1)
    else none
  else none

/-- regex.split on the (captured) url pattern (line 395): alternating
non-match and match segments, empty segments included.  Fuel length+1
suffices: each step consumes at least one character. -/
def urlSplitAux : Nat → List Char → List Char → List (List Char)
  | 0, buf, _ => [buf.reverse]
  | _ + 1, buf, [] => [buf.reverse]
  | f + 1, buf, c :: rest =>
    match urlMatchLen (c :: rest) with
    | some n => buf.reverse :: (c :: rest).take n :: urlSplitAux f [] ((c :: rest).drop n)
    | none => urlSplitAux f (c :: buf) rest

/-- First index of an unescaped comment character: regex search for a
percent not preceded by a backslash (line 388). -/
def firstUnescapedPct (s : List Char) : Option Nat :=
  (List.range s.length).find? fun i =>
    s.getD i ' ' = '%' && (i = 0 || !(s.getD (i - 1) ' ' = '\\'))

/-- The inner remove_comments helper (lines 384-392): returns the processed
segment and whether a comment was found. -/
def removeCommentsSeg (s : List Char) : List Char × Bool :=
  if (s.drop (countLeading spaceChar s)).headD ' ' = '%' && s.drop (countLeading spaceChar s) ≠ [] then
    ([], true)
  else
    match firstUnescapedPct s with
    | some i => (s.take (i + 1) ++ ['\n'], true)
    | none => (s, false)

/-- The loop over segments (lines 397-404): url segments are kept intact,
other segments are comment-stripped, and everything after the first
segment with a comment is discarded. -/
def processSegs : List (List Char) → List (List Char)
  | [] => []
  | s :: ss =>
    if (urlMatchLen s).isSome then s :: processSegs ss
    else
      match removeCommentsSeg s with
      | (s', true) => [s']
      | (s', false) => s' :: processSegs ss

/-- Function _remove_comments_inline (lines 373-411). -/
def removeCommentsInline (text : List Char) : List Char :=
  if autoIgnoreFound text then autoIgnoreSubAux (text.length + 1) text
  else if startsPctAfterStrip text then []
  else
    let segs := urlSplitAux (text.length + 1) [] text
    let ft := (processSegs segs).flatten
    if ['\n'].isSuffixOf ft || ['\\', 'n'].isSuffixOf ft then ft else ft ++ ['\n']

/-!  ## _strip_tex_contents (arxiv_latex_cleaner.py lines 414-422)  -/

/-- Function _strip_tex_contents: scan the lines; at a line containing end_str, keep
everything up to and including it when the line has no comment character
or its first comment character comes after the first end_str occurrence. -/
def stripTexContents : List (List Char) → List Char → List (List Char)
  | [], _ => []
  | l :: rest, endStr =>
    if containsSub l endStr then
      if !(containsSub l ['%']) then [l]
      else
        match indexOfSub l ['%'], indexOfSub l endStr with
        | some ip, some ie =>
          if ip > ie then [l] else l :: stripTexContents rest endStr
        | _, _ => l :: stripTexContents rest endStr
    else l :: stripTexContents rest endStr

/-- The truncation condition of _strip_tex_contents for a single line. -/
def truncHere (l m : List Char) : Bool :=
  containsSub l m &&
    (!(containsSub l ['%']) ||
      (match indexOfSub l ['%'], indexOfSub l m with
       | some ip, some ie => decide (ip > ie)
       | _, _ => false))

/-!  ## _simplify_conditional_blocks (arxiv_latex_cleaner.py lines 180-370)  -/

/-- Which alternative of the token regex (line 190) matched. -/
inductive RawKind where
  | rIf
  | rElse
  | rFi
deriving DecidableEq, Repr

/-- A token found by the scan: alternative, span [s, e), matched text. -/
structure Tok where
  kind : RawKind
  s : Nat
  e : Nat
  txt : List Char
deriving DecidableEq, Repr

/-- The negative lookbehind of the token regex: the text ending at position i
ends with a backslash-newif followed by a (possibly empty) whitespace run. -/
def newifBehind (cs : List Char) (i : Nat) : Bool :=
  (List.range (i + 1)).any fun n =>
    decide (6 + n ≤ i) &&
    "\\newif".toList.isPrefixOf (cs.drop (i - 6 - n)) &&
    ((cs.drop (i - n)).take n).all spaceChar

/-- Whether position j is at the end of the text or holds a non-word
character (the negative lookahead after backslash-else and backslash-fi). -/
def notWordAt (cs : List Char) (j : Nat) : Bool :=
  match cs.drop j with
  | [] => true
  | c :: _ => !(wordChar c)

/-- Try to match one token of the conditional regex at position i
(alternatives tried in the pattern's order). -/
def matchTokAt (cs : List Char) (i : Nat) : Option Tok :=
  if "\\if".toList.isPrefixOf (cs.drop i) && !(newifBehind cs i) then
    let j := i + 3 + countLeading spaceChar (cs.drop (i + 3))
    let k := countLeading wordChar (cs.drop j)
    if k > 0 then some ⟨.rIf, i, j + k, (cs.drop i).take (j + k - i)⟩ else none
  else if "\\else".toList.isPrefixOf (cs.drop i) && notWordAt cs (i + 5) then
    some ⟨.rElse, i, i + 5, "\\else".toList⟩
  else if "\\fi".toList.isPrefixOf (cs.drop i) && notWordAt cs (i + 3) then
    some ⟨.rFi, i, i + 3, "\\fi".toList⟩
  else none

/-- finditer of the token regex: leftmost, non-overlapping matches.  Fuel
length+1 suffices: each step advances the position by at least one. -/
def scanAux (cs : List Char) : Nat → Nat → List Tok
  | 0, _ => []
  | f + 1, i =>
    if i < cs.length then
      match matchTokAt cs i with
      | some t => t :: scanAux cs f t.e
      | none => scanAux cs f (i + 1)
    else []

/-- All conditional tokens of a text, in order. -/
def scanTokens (cs : List Char) : List Tok :=
  scanAux cs (cs.length + 1) 0

/-- Node kinds of the conditional tree ('toplevel' only for the root). -/
inductive NKind where
  | nFalse
  | nTrue
  | nUnknown
  | nTop
deriving DecidableEq, Repr

/-- How the scan loop (lines 290-326) treats one token, given the exception
list: the m_no_space string is the matched text with spaces removed. -/
inductive TokAct where
  | aFalse
  | aTrue
  | aUnknown
  | aSkip
  | aElse
  | aFi
deriving DecidableEq, Repr

/-- List of exception names built at lines 195-252 (if_exceptions argument
excluded; it is appended by the caller of classifyTok). -/
def defaultIfExceptions : List (List Char) :=
  ["iff", "ifpatchable", "ifpatchable*", "ifbool", "iftoggle", "ifdef", "ifcsdef",
   "ifundef", "ifcsundef", "ifdefmacro", "ifcsmacro", "ifdefparam", "ifcsparam",
   "ifcsprefix", "ifdefprotected", "ifcsprotected", "ifdefltxprotect",
   "ifcsltxprotect", "ifdefempty", "ifcsempty", "ifdefvoid", "ifcsvoid",
   "ifdefequal", "ifcsequal", "ifdefstring", "ifcsstring", "ifdefstrequal",
   "ifcsstrequal", "ifdefcounter", "ifcscounter", "ifltxcounter", "ifdeflength",
   "ifcslength", "ifdefdimen", "ifcsdimen", "ifstrequal", "ifstrempty", "ifblank",
   "ifnumcomp", "ifnumequal", "ifnumodd", "ifdimcomp", "ifdimequal",
   "ifdimgreater", "ifdimless", "ifboolexpr", "ifboolexpe", "ifinlist",
   "ifinlistcs", "ifrmnum", "ifpdfstringunicode", "ifthenelse"].map String.toList

/-- Classify a token the way the scan loop dispatches on it. -/
def classifyTok (exc : List (List Char)) (t : Tok) : TokAct :=
  match t.kind with
  | .rElse => .aElse
  | .rFi => .aFi
  | .rIf =>
    let ns := t.txt.filter fun c => c ≠ ' '
    if ns = "\\iffalse".toList || ns = "\\if0".toList then .aFalse
    else if ns = "\\iftrue".toList || ns = "\\if1".toList then .aTrue
    else if (ns.drop 1) ∈ exc then .aSkip
    else .aUnknown

/-- The conditional tree: kind, start/else/end tokens (absent while the node
is open, and absent on the synthetic root), children before and after the
else token.  The Python dict-with-parent-pointers becomes this tree plus
an explicit stack of open frames. -/
inductive CTree where
  | node (kind : NKind) (startT : Option Tok) (elseT : Option Tok) (endT : Option Tok)
      (lefts : List CTree) (rights : List CTree)

/-- An open node during the scan: its closed children accumulated so far. -/
structure TFrame where
  kind : NKind
  startT : Option Tok
  elseT : Option Tok
  lefts : List CTree
  rights : List CTree

/-- The synthetic toplevel node. -/
def initFrame : TFrame := ⟨.nTop, none, none, [], []⟩

/-- add_subtree (lines 257-262): a child goes to the left or right list of
its parent according to whether the parent already saw its else token.
The Python code attaches children at push time; attaching at pop time is
equivalent because a parent's else token cannot arrive while a child is
open, and this is the invariant the stack encoding relies on. -/
def pushChild (p : TFrame) (c : CTree) : TFrame :=
  if p.elseT.isSome then { p with rights := p.rights ++ [c] }
  else { p with lefts := p.lefts ++ [c] }

/-- Close an open frame into a tree node. -/
def closeFrame (fr : TFrame) (endT : Option Tok) : CTree :=
  .node fr.kind fr.startT fr.elseT endT fr.lefts fr.rights

/-- Result of the scan loop: the finished toplevel frame, or the stack of
open frames at the moment an error aborted the scan. -/
inductive BuildRes where
  | done (top : TFrame)
  | failed (top : TFrame) (parents : List TFrame)

/-- The scan loop (lines 290-330): top is the current node, parents the
chain up to the toplevel; an empty parents list means the current node is
the toplevel.  Errors: unmatched else, duplicate else, unmatched fi, and a
node still open when the tokens run out. -/
def buildAux (exc : List (List Char)) : List Tok → TFrame → List TFrame → BuildRes
  | [], top, [] => .done top
  | [], top, p :: ps => .failed top (p :: ps)
  | t :: ts, top, ps =>
    match classifyTok exc t with
    | .aFalse => buildAux exc ts ⟨.nFalse, some t, none, [], []⟩ (top :: ps)
    | .aTrue => buildAux exc ts ⟨.nTrue, some t, none, [], []⟩ (top :: ps)
    | .aUnknown => buildAux exc ts ⟨.nUnknown, some t, none, [], []⟩ (top :: ps)
    | .aSkip => buildAux exc ts top ps
    | .aElse =>
      match ps with
      | [] => .failed top []
      | _ :: _ =>
        if top.elseT.isSome then .failed top ps
        else buildAux exc ts { top with elseT := some t } ps
    | .aFi =>
      match ps with
      | [] => .failed top []
      | p :: ps2 => buildAux exc ts (pushChild p (closeFrame top (some t))) ps2

/-- Reconstruct the tree built so far from the stack at an error: every open
frame is a child (on the side its parent's current else status selects) of
the frame below it, exactly as the Python parent pointers record it. -/
def collapseStack : TFrame → List TFrame → CTree
  | top, [] => closeFrame top none
  | top, p :: ps => collapseStack (pushChild p (closeFrame top none)) ps

/-- traverse_tree (lines 334-358), collecting deletion spans in the order the
Python list receives them.  Fuel-indexed recursion over the nested tree;
the caller passes fuel exceeding the total number of nodes, so the
fuel-zero branch is never reached on trees built from a token scan.  The
wildcard token patterns are unreachable for nodes produced by a successful
scan (every such node carries its start and end tokens). -/
def spansAux : Nat → List CTree → List (Nat × Nat)
  | 0, _ => []
  | _ + 1, [] => []
  | f + 1, .node k st et en l r :: ts =>
    (match k, st, et, en with
     | .nFalse, some s0, some e0, some n0 =>
       (s0.s, e0.e) :: (spansAux f r ++ [(n0.s, n0.e)])
     | .nFalse, some s0, none, some n0 => [(s0.s, n0.e)]
     | .nTrue, some s0, some e0, some n0 =>
       (s0.s, s0.e) :: (spansAux f l ++ [(e0.s, n0.e)])
     | .nTrue, some s0, none, some n0 => [(s0.s, s0.e), (n0.s, n0.e)]
     | .nUnknown, _, _, _ => spansAux f l ++ spansAux f r
     | _, _, _, _ => []) ++ spansAux f ts

/-- Application of the deletion spans (lines 363-368): reversed order, each
span extended by one character when the character right after it in the
current text is whitespace. -/
def applyDel (cs : List Char) (spans : List (Nat × Nat)) : List Char :=
  spans.reverse.foldl
    (fun t se =>
      let e2 := if se.2 < t.length && spaceChar (t.getD se.2 ' ') then se.2 + 1 else se.2
      t.take se.1 ++ t.drop e2)
    cs

/-- Indentation spaces. -/
def indentSp (n : Nat) : List Char := List.replicate n ' '

/-- print_tree (lines 264-274) as the text it writes, or an error when it
raises: the recursive call for the children after the else token (line 272)
omits the required write argument, so Python raises TypeError the moment
that list is nonempty.  Fuel-indexed; the caller's fuel exceeds the number
of nodes, and exhausted fuel yields the text produced so far (the
 fuel-zero branch is never reached on trees from a token scan). -/
def renderAux : Nat → List CTree → Nat → Except Unit (List Char)
  | 0, _, _ => .ok []
  | _ + 1, [], _ => .ok []
  | f + 1, .node _ st et en l r :: ts, ind =>
    let tokLine := fun (o : Option Tok) => match o with
      | some t => indentSp ind ++ t.txt ++ ['\n']
      | none => ([] : List Char)
    match renderAux f l (ind + 2) with
    | .error _ => .error ()
    | .ok s2 =>
      if r.isEmpty then
        match renderAux f ts ind with
        | .error _ => .error ()
        | .ok s6 => .ok (tokLine st ++ s2 ++ tokLine et ++ tokLine en ++ s6)
      else .error ()

/-- Function _simplify_conditional_blocks (lines 180-370).  The result is
Except.error () exactly when the Python function raises (the TypeError of
print_tree on a tree with children after an else); otherwise Except.ok of
the text the function returns. -/
def simplifyConditionalBlocks (ifExceptions : List (List Char)) (text : List Char) :
    Except Unit (List Char) :=
  let toks := scanTokens text
  let exc := defaultIfExceptions ++ ifExceptions
  match buildAux exc toks initFrame [] with
  | .failed top ps =>
    match renderAux (2 * text.length + 4) [collapseStack top ps] 9 with
    | .ok _ => .ok text
    | .error _ => .error ()
  | .done top => .ok (applyDel text (spansAux (2 * text.length + 4) top.lefts))

/-!  ## _keep_only_referenced_tex (arxiv_latex_cleaner.py lines 706-729)  -/

/-- Last index of c in l (Python str.rfind, none for -1). -/
def lastIdxOf (l : List Char) (c : Char) : Option Nat :=
  (List.range l.length).reverse.find? fun i => l.getD i ' ' = c

/-- os.path.splitext(p)[0]: drop the extension, where the extension starts at
the last dot of the final path component unless that component consists
only of dots up to there. -/
def splitextStem (p : List Char) : List Char :=
  match lastIdxOf p '.' with
  | none => p
  | some d =>
    let fi : Nat := match lastIdxOf p '/' with
      | none => 0
      | some si => si + 1
    if fi ≤ d then
      if ((p.drop fi).take (d - fi)).any (fun c => c ≠ '.') then p.take d else p
    else p

/-- The per-file reference test of the closure (line 720): the regex built
from the stem matches when the stem occurs not preceded by a word
character and immediately followed by a dot or a closing brace.  The stem
is interpolated into the pattern verbatim, so this reading is exact for
stems free of regex metacharacters (ordinary file names). -/
def stemRef (content stem : List Char) : Bool :=
  (List.range (content.length + 1)).any fun i =>
    (i = 0 || !(wordChar (content.getD (i - 1) ' '))) &&
    stem.isPrefixOf (content.drop i) &&
    (match content.drop (i + stem.length) with
     | [] => false
     | c :: _ => c = '.' || c = '}')

/-- One full pass of the closure loop (lines 718-723): every known file whose
stem is referenced by some file already in the Required set joins it. -/
def onePassRef (files : List String) (contents : String → List Char)
    (req : Finset String) : Finset String :=
  req ∪ (files.filter fun f =>
    decide (∃ r ∈ req, stemRef (contents r) (splitextStem f.toList) = true)).toFinset

/-- The fixpoint loop, fuel-indexed.  keepOnlyReferencedTex passes fuel
|files| + 1, which theorem c6_monotone_terminates proves sufficient: the
Python while-True loop performs exactly the passes this function performs
before the test succeeds. -/
def refClosureAux (g : Finset String → Finset String) : Nat → Finset String → Finset String
  | 0, req => req
  | fuel + 1, req =>
    let next := g req
    if next = req then req else refClosureAux g fuel next

/-- Function _keep_only_referenced_tex: files is the list of known document files
(tex_in_root + tex_not_in_root), init the initial Required set (the
start_with entry, or the root files when none is given). -/
def keepOnlyReferencedTex (files : List String) (contents : String → List Char)
    (init0 : Finset String) : Finset String :=
  refClosureAux (onePassRef files contents) (files.length + 1) init0

/-- Basename: final path component (after the last slash). -/
def basenameOf (p : List Char) : List Char :=
  match lastIdxOf p '/' with
  | none => p
  | some si => p.drop (si + 1)

/-- Modelled from the spec's words, for comparison with the source behaviour
(claim C1): the content mentions the file when the file's
basename-without-extension occurs word-bounded and immediately followed
by a dot or closing brace. -/
def specBasenameRef (content : List Char) (f : String) : Bool :=
  stemRef content (splitextStem (basenameOf f.toList))

/-!  ## _search_reference (arxiv_latex_cleaner.py lines 650-691)  -/

/-- Minimal regular-expression syntax covering the patterns _search_reference
builds: single-character classes, sequencing, alternation, and Kleene star
of a character class. -/
inductive RE where
  | eps
  | chr (p : Char → Bool)
  | seq (a b : RE)
  | alt (a b : RE)
  | star (p : Char → Bool)

/-- Remainders after consuming a (possibly empty) run of characters in p. -/
def starRem (p : Char → Bool) : List Char → List (List Char)
  | [] => [[]]
  | c :: s => (c :: s) :: (if p c then starRem p s else [])

/-- All remainders of the string after some match of the expression. -/
def reMatch : RE → List Char → List (List Char)
  | .eps, s => [s]
  | .chr _, [] => []
  | .chr p, c :: s => if p c then [s] else []
  | .seq a b, s => (reMatch a s).flatMap fun s2 => reMatch b s2
  | .alt a b, s => reMatch a s ++ reMatch b s
  | .star p, s => starRem p s

/-- regex.search: some suffix admits a match. -/
def reSearch (r : RE) (cs : List Char) : Bool :=
  (List.range (cs.length + 1)).any fun i => !(reMatch r (cs.drop i)).isEmpty

/-- Case-insensitive literal character (the whole search uses IGNORECASE). -/
def reChr (c0 : Char) : RE := .chr fun c => c.toLower = c0.toLower

/-- Case-insensitive literal string. -/
def reLit (cs : List Char) : RE := cs.foldr (fun c acc => .seq (reChr c) acc) .eps

/-- Optional group. -/
def reOpt (r : RE) : RE := .alt r .eps

/-- The class of whitespace-or-comment characters padding the braces. -/
def wsPctStar : RE := .star fun c => spaceChar c || c = '%'

/-- The regex dot (any character but a newline), as used in the unescaped
leading (./)? group of line 684. -/
def reAny : RE := .chr fun c => c ≠ '\n'

/-- pathlib name: final component of the (relative) path. -/
def pathName (p : List Char) : List Char := basenameOf p

/-- pathlib stem: name up to its last dot, when that dot is neither leading
nor trailing. -/
def pathStem (p : List Char) : List Char :=
  let n := pathName p
  match lastIdxOf n '.' with
  | some i => if 0 < i ∧ i + 1 < n.length then n.take i else n
  | none => n

/-- pathlib suffix: the extension part matching pathStem. -/
def pathSuffix (p : List Char) : List Char :=
  let n := pathName p
  match lastIdxOf n '.' with
  | some i => if 0 < i ∧ i + 1 < n.length then n.drop i else []
  | none => []

/-- Helper of splitSlash: forward scan accumulating the current component. -/
def splitSlashAux : List Char → List Char → List (List Char)
  | buf, [] => [buf.reverse]
  | buf, c :: rest =>
    if c = '/' then buf.reverse :: splitSlashAux [] rest
    else splitSlashAux (c :: buf) rest

/-- Split a path on slashes. -/
def splitSlash (p : List Char) : List (List Char) :=
  splitSlashAux [] p

/-- The names of reversed(Path(p).parents) for a plain relative path: the
root parent has name empty (pathlib gives the dot-path the empty name, so
the source's skip test for it never fires), then each directory name in
order. -/
def parentNames (p : List Char) : List (List Char) :=
  [] :: (splitSlash p).dropLast

/-- The non-strict pattern of lines 660-687: braces around optional
whitespace-or-comment padding, an optional any-character-plus-slash
prefix, nested optional directory fragments, the stem, and an optional
extension. -/
def buildNonStrict (filename : List Char) : RE :=
  let basenameRE := .seq (reLit (pathStem filename)) (reOpt (reLit (pathSuffix filename)))
  let prefixRE := (parentNames filename).foldl
    (fun acc frag => reOpt (.seq acc (.seq (reLit frag) (reChr '/')))) .eps
  let filenameRE := .seq (reOpt (.seq reAny (reChr '/'))) (.seq prefixRE basenameRE)
  .seq (reChr '{') (.seq wsPctStar (.seq filenameRE (.seq wsPctStar (reChr '}'))))

/-- The strict pattern of lines 656-689: the literal path (dots escaped),
optional braces, the same padding and optional any-character-plus-slash
prefix. -/
def buildStrict (filename : List Char) : RE :=
  let filenameRE := .seq (reOpt (.seq reAny (reChr '/'))) (reLit filename)
  .seq (reOpt (reChr '{'))
    (.seq wsPctStar (.seq filenameRE (.seq wsPctStar (reOpt (reChr '}')))))

/-- Function _search_reference as a boolean (the caller only tests the match against
None). -/
def searchReference (strict : Bool) (filename contents : List Char) : Bool :=
  reSearch (if strict then buildStrict filename else buildNonStrict filename) contents

/-!  ## Theorems for the claims  -/

/-- Helper: an empty child list renders to the empty text at any fuel. -/
theorem renderAux_nil (f ind : Nat) : renderAux f [] ind = .ok [] := by
  cases f <;> rfl

/-- Helper: an empty tree list contributes no deletion spans at any fuel. -/
theorem spansAux_nil (f : Nat) : spansAux f [] = [] := by
  cases f <;> rfl

/-- C2 counterexample: on exactly the text backslash-iftrue A backslash-else B
backslash-fi the resolver returns the two characters A-space, not exactly A:
the space before the else token survives into the output. -/
theorem c2_counterexample :
    simplifyConditionalBlocks [] "\\iftrue A \\else B \\fi".toList = Except.ok "A ".toList ∧
    "A ".toList ≠ "A".toList := by decide

/-- C2 (amended): resolving the text backslash-iftrue A backslash-else B
backslash-fi yields A-space, and resolving backslash-iffalse A
backslash-else B backslash-fi yields B-space: the selected branch with the
other branch and all directive tokens removed, except that the single
whitespace character immediately following each deleted span is consumed
too, so the space separating the kept payload from the following directive
token remains in the output. -/
theorem c2_resolved_branches :
    simplifyConditionalBlocks [] "\\iftrue A \\else B \\fi".toList = Except.ok "A ".toList ∧
    simplifyConditionalBlocks [] "\\iffalse A \\else B \\fi".toList = Except.ok "B ".toList := by
  decide

/-- C3: on the malformed input with one unmatched trailing backslash-fi whose
partially built tree contains a node having children after its else token,
the diagnostic printer's recursive call without its required write
argument (source line 272) raises TypeError: the conditional resolver
neither returns the input text nor recovers, contradicting both the claim
and the function's own docstring.  The embedding returns Except.error ()
exactly on that raise. -/
theorem c3_diagnostic_crash :
    simplifyConditionalBlocks [] "\\iftrue A\\else B\\iftrue C\\fi D\\fi\\fi".toList
      = Except.error () := by decide

/-- C4 counterexample: the line text-space-percent-space-comment maps to
text-space-percent-newline (the truncation keeps the comment character),
not to text-newline as the claim states. -/
theorem c4_counterexample :
    removeCommentsInline "text % comment".toList = "text %\n".toList ∧
    "text %\n".toList ≠ "text\n".toList := by decide

/-- C4 (amended): the per-line comment stripper truncates at the first
unescaped comment character inclusive of that character, so
text-space-percent-space-comment maps to text-space-percent-newline; a
line that after stripping a leading run of spaces and then a run of tabs
starts with the comment character maps to the empty string, provided the
line does not match the auto-ignore pattern; and a percent inside the
balanced-brace argument of a url span is left intact. -/
theorem c4_comment_stripper :
    removeCommentsInline "text % comment".toList = "text %\n".toList ∧
    (∀ line : List Char, autoIgnoreFound line = false → startsPctAfterStrip line = true →
      removeCommentsInline line = []) ∧
    removeCommentsInline "a\\url{http://x%y}b".toList = "a\\url{http://x%y}b\n".toList := by
  refine ⟨by decide, ?_, by decide⟩
  intro line h1 h2
  simp [removeCommentsInline, h1, h2]

/-- Witness for the quantified clause of C4's amended theorem at the concrete
line percent-space-c. -/
theorem c4_comment_stripper_witness :
    autoIgnoreFound "% c".toList = false ∧ startsPctAfterStrip "% c".toList = true ∧
    removeCommentsInline "% c".toList = [] :=
  ⟨by decide, by decide, c4_comment_stripper.2.1 "% c".toList (by decide) (by decide)⟩

/-- C7: for the candidate asset path plots/fig.pdf, the non-strict matcher
accepts all three brace-delimited contents (directory components and the
extension are independently optional, and matching is case-insensitive),
while the strict matcher accepts only the full literal path. -/
theorem c7_asset_matcher :
    searchReference false "plots/fig.pdf".toList "{plots/fig}".toList = true ∧
    searchReference false "plots/fig.pdf".toList "{plots/fig.pdf}".toList = true ∧
    searchReference false "plots/fig.pdf".toList "{FIG.PDF}".toList = true ∧
    searchReference true "plots/fig.pdf".toList "{plots/fig.pdf}".toList = true ∧
    searchReference true "plots/fig.pdf".toList "{plots/fig}".toList = false ∧
    searchReference true "plots/fig.pdf".toList "{FIG.PDF}".toList = false := by decide

/-- C9 counterexample: a comment-only line is mapped to the empty string,
which does not end with a newline character. -/
theorem c9_counterexample :
    removeCommentsInline "% c".toList = [] ∧
    (['\n'].isSuffixOf ([] : List Char)) = false := by decide

/-- C1 counterexample: the known file sub/chap.tex, whose
basename-without-extension chap occurs in the required file's content
word-bounded and immediately followed by a closing brace, is not added by
a pass of the closure: the source matches on the relative path without
extension (sub/chap), so the directory components of the path do matter. -/
theorem c1_counterexample :
    specBasenameRef "\\input{chap}".toList "sub/chap.tex" = true ∧
    onePassRef ["sub/chap.tex"]
      (fun f => if f = "main.tex" then "\\input{chap}".toList else [])
      (insert "main.tex" ∅) = insert "main.tex" ∅ ∧
    ("sub/chap.tex" : String) ∉ onePassRef ["sub/chap.tex"]
      (fun f => if f = "main.tex" then "\\input{chap}".toList else [])
      (insert "main.tex" ∅) := by decide

/-- C1 (amended): one pass of the reference closure adds a known file f to
the Required set exactly when some file already in Required has content in
which f's relative path without its extension (directory components
included) occurs not preceded by a word character and immediately followed
by a dot or a closing brace. -/
theorem c1_one_pass_membership (files : List String) (contents : String → List Char)
    (req : Finset String) (f : String) :
    f ∈ onePassRef files contents req ↔
      f ∈ req ∨ (f ∈ files ∧
        ∃ r ∈ req, stemRef (contents r) (splitextStem f.toList) = true) := by
  simp [onePassRef, List.mem_filter]

/-- C10 counterexample: with the marker percent-x, the second line contains
the marker at index 0 and contains no comment character strictly before
it (its first percent is at the marker itself), so the claim requires the
list to be cut after that line; the code instead returns the whole list,
because it demands the first percent strictly after the first marker
occurrence. -/
theorem c10_counterexample :
    stripTexContents [" a".toList, "%x".toList, "b".toList] "%x".toList
      = [" a".toList, "%x".toList, "b".toList] ∧
    indexOfSub "%x".toList "%x".toList = some 0 ∧
    indexOfSub "%x".toList ['%'] = some 0 ∧
    [" a".toList, "%x".toList, "b".toList] ≠ ([" a".toList, "%x".toList] : List (List Char)) := by
  decide

/-- Helper: the occurrence test agrees with the first-occurrence index. -/
theorem containsSub_isSome (l sub : List Char) :
    containsSub l sub = true ↔ (indexOfSub l sub).isSome := by
  simp [containsSub, indexOfSub, List.find?_isSome, List.any_eq_true]

/-- Helper: one step of the line scan, phrased with the truncation condition. -/
theorem stripTexContents_cons (l : List Char) (rest : List (List Char)) (m : List Char) :
    stripTexContents (l :: rest) m =
      if truncHere l m = true then [l] else l :: stripTexContents rest m := by
  by_cases hm : containsSub l m = true
  · by_cases hp : containsSub l ['%'] = true
    · obtain ⟨ip, hip⟩ := Option.isSome_iff_exists.mp ((containsSub_isSome l ['%']).mp hp)
      obtain ⟨ie, hie⟩ := Option.isSome_iff_exists.mp ((containsSub_isSome l m).mp hm)
      by_cases hgt : ip > ie
      · simp [stripTexContents, truncHere, hm, hp, hip, hie, hgt]
      · simp [stripTexContents, truncHere, hm, hp, hip, hie, hgt]
    · simp [stripTexContents, truncHere, hm, hp]
  · simp [stripTexContents, truncHere, hm]

/-- C10 (amended): the end-marker truncation returns a contiguous prefix of
the input with each retained line unchanged: the whole list when no line
satisfies the code's truncation condition (marker present, and the first
comment character absent or at a strictly greater index than the first
marker occurrence), and otherwise the prefix up to and including the
first line that satisfies it. -/
theorem c10_marker_truncation (lines : List (List Char)) (m : List Char) :
    ((∀ l ∈ lines, truncHere l m = false) ∧ stripTexContents lines m = lines) ∨
    (∃ pre l2 post, lines = pre ++ l2 :: post ∧ (∀ x ∈ pre, truncHere x m = false) ∧
      truncHere l2 m = true ∧ stripTexContents lines m = pre ++ [l2]) := by
  induction lines with
  | nil => exact Or.inl ⟨by simp, rfl⟩
  | cons l rest ih =>
    by_cases h : truncHere l m = true
    · refine Or.inr ⟨[], l, rest, by simp, by simp, h, ?_⟩
      simp [stripTexContents_cons, h]
    · rcases ih with ⟨hall, heq⟩ | ⟨pre, l2, post, hsplit, hpre, htr, heq⟩
      · refine Or.inl ⟨?_, ?_⟩
        · intro x hx
          rcases List.mem_cons.mp hx with rfl | hx2
          · exact Bool.eq_false_iff.mpr h
          · exact hall x hx2
        · simp [stripTexContents_cons, h, heq]
      · refine Or.inr ⟨l :: pre, l2, post, by simp [hsplit], ?_, htr, ?_⟩
        · intro x hx
          rcases List.mem_cons.mp hx with rfl | hx2
          · exact Bool.eq_false_iff.mpr h
          · exact hpre x hx2
        · simp [stripTexContents_cons, h, heq]

/-- Helper: appending a newline yields a newline-terminated list. -/
theorem isSuffixOf_append_newline (l : List Char) :
    ['\n'].isSuffixOf (l ++ ['\n']) = true := by
  simp [List.isSuffixOf, List.isPrefixOf]

/-- C9 (amended): the string returned by the per-line comment stripper ends
with a newline character, unless it is empty (a comment-only line), the
joined text ends with the two-character sequence backslash-n (which the
final check of the source mistakes for a newline), or the line matches
the auto-ignore pattern. -/
theorem c9_trailing_newline (line : List Char) :
    removeCommentsInline line = [] ∨
    ['\n'].isSuffixOf (removeCommentsInline line) = true ∨
    ['\\', 'n'].isSuffixOf (removeCommentsInline line) = true ∨
    autoIgnoreFound line = true := by
  by_cases h1 : autoIgnoreFound line = true
  · exact Or.inr (Or.inr (Or.inr h1))
  · by_cases h2 : startsPctAfterStrip line = true
    · left
      simp [removeCommentsInline, h1, h2]
    · rw [removeCommentsInline]
      simp only [h1, h2, Bool.false_eq_true, if_false]
      set ft := (processSegs (urlSplitAux (line.length + 1) [] line)).flatten with hft
      by_cases h3 : ['\n'].isSuffixOf ft = true
      · right; left; simp [h3]
      · by_cases h4 : ['\\', 'n'].isSuffixOf ft = true
        · right; right; left; simp [h3, h4]
        · right; left
          simp [h3, h4, isSuffixOf_append_newline]

/-- C5: the final Required set of the reference closure does not depend on
the iteration order over the file set: permuting the known files yields
the same result. -/
theorem c5_order_independent (l1 l2 : List String) (contents : String → List Char)
    (init0 : Finset String) (h : l1.Perm l2) :
    keepOnlyReferencedTex l1 contents init0 = keepOnlyReferencedTex l2 contents init0 := by
  have hg : onePassRef l1 contents = onePassRef l2 contents := by
    funext req
    unfold onePassRef
    rw [List.toFinset_eq_of_perm _ _ (List.Perm.filter _ h)]
  unfold keepOnlyReferencedTex
  rw [hg, h.length_eq]

/-- Witness for C5 at a concrete two-file permutation. -/
theorem c5_order_independent_witness :
    (["a.tex", "b.tex"] : List String).Perm ["b.tex", "a.tex"] ∧
    keepOnlyReferencedTex ["a.tex", "b.tex"] (fun _ => []) (insert "a.tex" ∅)
      = keepOnlyReferencedTex ["b.tex", "a.tex"] (fun _ => []) (insert "a.tex" ∅) :=
  ⟨List.Perm.swap "b.tex" "a.tex" [],
   c5_order_independent _ _ _ _ (List.Perm.swap "b.tex" "a.tex" [])⟩

/-- Helper: the Required set only grows under a pass. -/
theorem onePassRef_grows (files : List String) (contents : String → List Char)
    (req : Finset String) : req ⊆ onePassRef files contents req :=
  Finset.subset_union_left

/-- Helper: an element a pass adds comes from the known file set. -/
theorem onePassRef_new_mem_files {files : List String} {contents : String → List Char}
    {req : Finset String} {x : String} (hx : x ∈ onePassRef files contents req)
    (hnx : x ∉ req) : x ∈ files.toFinset := by
  rcases Finset.mem_union.mp hx with h | h
  · exact absurd h hnx
  · exact List.mem_toFinset.mpr (List.mem_filter.mp (List.mem_toFinset.mp h)).1

/-- Helper: a fixpoint of a pass stays fixed under iteration. -/
theorem iterate_fixed_of_fixed {g : Finset String → Finset String} {a : Finset String}
    (h : g a = a) : ∀ n, g^[n] a = a := by
  intro n
  induction n with
  | zero => rfl
  | succ n ih => rw [Function.iterate_succ_apply', ih, h]

/-- Helper: after |files| passes the Required set has stabilized: every pass
either reaches a fixpoint early (which then persists) or strictly adds a
file from the finite known set, which can happen at most |files| times. -/
theorem closure_stabilizes (files : List String) (contents : String → List Char)
    (init0 : Finset String) :
    onePassRef files contents ((onePassRef files contents)^[files.length] init0)
      = (onePassRef files contents)^[files.length] init0 := by
  set g := onePassRef files contents with hgdef
  set L := files.length with hL
  by_contra hne
  have hstrict : ∀ k, k ≤ L → g^[k + 1] init0 ≠ g^[k] init0 := by
    intro k hk heq
    have hfix : g (g^[k] init0) = g^[k] init0 := by
      rw [← Function.iterate_succ_apply' g k init0]; exact heq
    have : g^[L] init0 = g^[k] init0 := by
      have := iterate_fixed_of_fixed hfix (L - k)
      calc g^[L] init0 = g^[(L - k) + k] init0 := by rw [Nat.sub_add_cancel hk]
        _ = g^[L - k] (g^[k] init0) := by rw [Function.iterate_add_apply]
        _ = g^[k] init0 := this
    exact hne (by rw [this, hfix])
  have hmono : ∀ k, g^[k] init0 ⊆ g^[k + 1] init0 := by
    intro k
    rw [Function.iterate_succ_apply']
    exact onePassRef_grows files contents _
  have hgrow : ∀ k, k ≤ L + 1 → k ≤ ((g^[k] init0) ∩ files.toFinset).card := by
    intro k
    induction k with
    | zero => intro _; exact Nat.zero_le _
    | succ k ih =>
      intro hk1
      have hk : k ≤ L := Nat.lt_succ_iff.mp hk1
      have hne2 := hstrict k hk
      have hsub := hmono k
      obtain ⟨x, hx1, hx2⟩ := Finset.exists_of_ssubset (lt_of_le_of_ne hsub (Ne.symm hne2))
      have hxf : x ∈ files.toFinset := by
        have : x ∈ g (g^[k] init0) := by
          rw [← Function.iterate_succ_apply' g k init0]; exact hx1
        exact onePassRef_new_mem_files this hx2
      have hss : (g^[k] init0 ∩ files.toFinset) ⊂ (g^[k + 1] init0 ∩ files.toFinset) := by
        refine Finset.ssubset_iff_of_subset (Finset.inter_subset_inter hsub le_rfl) |>.mpr ?_
        exact ⟨x, Finset.mem_inter.mpr ⟨hx1, hxf⟩, fun hc => hx2 (Finset.mem_inter.mp hc).1⟩
      have := Finset.card_lt_card hss
      have hih := ih (Nat.le_of_succ_le hk1)
      omega
  have hfin := hgrow (L + 1) le_rfl
  have hbound : ((g^[L + 1] init0) ∩ files.toFinset).card ≤ L := by
    calc ((g^[L + 1] init0) ∩ files.toFinset).card
        ≤ files.toFinset.card := Finset.card_le_card Finset.inter_subset_right
      _ ≤ files.length := files.toFinset_card_le
  omega

/-- Helper: once iterating the pass reaches a fixpoint within the fuel, the
while-True loop of the source computes exactly that iterate. -/
theorem refClosureAux_eq_iterate {g : Finset String → Finset String} :
    ∀ (fuel : Nat) (req : Finset String), g (g^[fuel] req) = g^[fuel] req →
      refClosureAux g (fuel + 1) req = g^[fuel] req := by
  intro fuel
  induction fuel with
  | zero =>
    intro req h
    simp only [Function.iterate_zero_apply] at h ⊢
    simp [refClosureAux, h]
  | succ f ih =>
    intro f2 h
    by_cases he : g f2 = f2
    · have hfix := iterate_fixed_of_fixed he (f + 1)
      rw [hfix]
      simp [refClosureAux, he]
    · have hstep : refClosureAux g (f + 1 + 1) f2 = refClosureAux g (f + 1) (g f2) := by
        simp [refClosureAux, he]
      rw [hstep, ih (g f2) (by rw [← Function.iterate_succ_apply]; exact h),
        ← Function.iterate_succ_apply]

/-- C6: the Required set only grows from one pass to the next, after |files|
passes it has stabilized (one further pass changes nothing), and the
closure loop terminates with exactly that stable set. -/
theorem c6_monotone_terminates (files : List String) (contents : String → List Char)
    (init0 : Finset String) :
    (∀ req : Finset String, req ⊆ onePassRef files contents req) ∧
    onePassRef files contents ((onePassRef files contents)^[files.length] init0)
      = (onePassRef files contents)^[files.length] init0 ∧
    keepOnlyReferencedTex files contents init0
      = (onePassRef files contents)^[files.length] init0 :=
  ⟨fun req => onePassRef_grows files contents req,
   closure_stabilizes files contents init0,
   refClosureAux_eq_iterate files.length init0 (closure_stabilizes files contents init0)⟩

/-- A frame with no else token, no children: the state every open frame is in
while the scan has seen only exception-skipped or unknown if tokens. -/
def cleanFr (fr : TFrame) : Prop := fr.elseT = none ∧ fr.lefts = [] ∧ fr.rights = []

/-- Helper: scanning tokens that are all skipped or unknown pushes either
nothing (the toplevel finishes as it started) or only clean frames (the
trailing unmatched-if error). -/
theorem buildAux_clean (exc : List (List Char)) (toks : List Tok)
    (hT : ∀ t ∈ toks, classifyTok exc t = .aSkip ∨ classifyTok exc t = .aUnknown) :
    ∀ top ps, cleanFr top → (∀ p ∈ ps, cleanFr p) →
      (ps = [] ∧ buildAux exc toks top ps = .done top) ∨
      (∃ top2 ps2, buildAux exc toks top ps = .failed top2 ps2 ∧
        cleanFr top2 ∧ ∀ p ∈ ps2, cleanFr p) := by
  induction toks with
  | nil =>
    intro top ps h1 h2
    cases ps with
    | nil => exact Or.inl ⟨rfl, rfl⟩
    | cons p ps => exact Or.inr ⟨top, p :: ps, rfl, h1, h2⟩
  | cons t ts ih =>
    intro top ps h1 h2
    have hts : ∀ t2 ∈ ts, classifyTok exc t2 = .aSkip ∨ classifyTok exc t2 = .aUnknown :=
      fun t2 ht2 => hT t2 (List.mem_cons_of_mem _ ht2)
    rcases hT t (List.mem_cons_self _ _) with hc | hc
    · have := ih hts top ps h1 h2
      simpa [buildAux, hc] using this
    · have := ih hts ⟨.nUnknown, some t, none, [], []⟩ (top :: ps) ⟨rfl, rfl, rfl⟩
        (by intro p hp; rcases List.mem_cons.mp hp with rfl | hp2; exact h1; exact h2 p hp2)
      rcases this with ⟨habs, _⟩ | ⟨top2, ps2, heq, hcl1, hcl2⟩
      · exact absurd habs (by simp)
      · exact Or.inr ⟨top2, ps2, by simp only [buildAux, hc]; exact heq, hcl1, hcl2⟩

/-- Wrap a tree as the sole pre-else child of a childless node. -/
def wrapNode (c : CTree) (p : NKind × Option Tok) : CTree :=
  .node p.1 p.2 none none [c] []

/-- The chain of nodes a stack of open frames collapses to. -/
def spineOf (base : CTree) (l : List (NKind × Option Tok)) : CTree := l.foldl wrapNode base

/-- Helper: a stack of clean frames collapses to a left-nested chain. -/
theorem collapseStack_clean (ps : List TFrame) :
    ∀ top : TFrame, top.elseT = none → top.rights = [] → (∀ p ∈ ps, cleanFr p) →
      collapseStack top ps
        = spineOf (closeFrame top none) (ps.map fun p => (p.kind, p.startT)) := by
  induction ps with
  | nil => intro top _ _ _; rfl
  | cons p ps ih =>
    intro top h1 h2 h3
    have hp := h3 p (List.mem_cons_self _ _)
    have hstep : collapseStack top (p :: ps)
        = collapseStack (pushChild p (closeFrame top none)) ps := rfl
    have hpc : pushChild p (closeFrame top none)
        = ⟨p.kind, p.startT, none, [closeFrame top none], []⟩ := by
      simp [pushChild, hp.1, hp.2.1, hp.2.2]
    rw [hstep, hpc, ih _ rfl rfl (fun q hq => h3 q (List.mem_cons_of_mem _ hq))]
    rfl

/-- Helper: wrapping preserves successful rendering (the wrapped node has no
post-else children, so the diagnostic printer's crash is not triggered). -/
theorem renderAux_ok_single (k : NKind) (st : Option Tok) (c : CTree)
    (hc : ∀ fuel ind, ∃ s, renderAux fuel [c] ind = .ok s) :
    ∀ fuel ind, ∃ s, renderAux fuel [wrapNode c (k, st)] ind = .ok s := by
  intro fuel ind
  cases fuel with
  | zero => exact ⟨[], rfl⟩
  | succ f =>
    obtain ⟨s, hs⟩ := hc f (ind + 2)
    simp only [renderAux, wrapNode, hs, renderAux_nil, List.isEmpty_nil, if_true]
    exact ⟨_, rfl⟩

/-- Helper: a chain over a renderable base renders without error. -/
theorem renderAux_spine (l : List (NKind × Option Tok)) :
    ∀ base : CTree, (∀ fuel ind, ∃ s, renderAux fuel [base] ind = .ok s) →
      ∀ fuel ind, ∃ s, renderAux fuel [spineOf base l] ind = .ok s := by
  induction l with
  | nil => intro base hb; exact hb
  | cons x xs ih =>
    intro base hb
    have : spineOf base (x :: xs) = spineOf (wrapNode base x) xs := rfl
    rw [this]
    exact ih (wrapNode base x) (renderAux_ok_single x.1 x.2 base hb)

/-- Helper: a childless node renders without error. -/
theorem renderAux_ok_leaf (k : NKind) (st : Option Tok) :
    ∀ fuel ind, ∃ s, renderAux fuel [CTree.node k st none none [] []] ind = .ok s := by
  intro fuel ind
  cases fuel with
  | zero => exact ⟨[], rfl⟩
  | succ f =>
    simp only [renderAux, renderAux_nil, List.isEmpty_nil, if_true]
    exact ⟨_, rfl⟩

/-- C8: the conditional resolver is idempotent on its output: on text in
which no iftrue, iffalse, else or fi directive tokens remain (every
remaining conditional token, if any, is an exception-listed or unknown
if), the resolver returns the text unchanged: either the token scan
builds an empty tree and no spans are deleted, or an unknown if is left
unmatched, in which case the error path prints the chain of open nodes
(which has no post-else children, so the diagnostic succeeds) and
returns the input. -/
theorem c8_idempotent (ifExceptions : List (List Char)) (text : List Char)
    (h : ∀ t ∈ scanTokens text,
      classifyTok (defaultIfExceptions ++ ifExceptions) t = .aSkip ∨
      classifyTok (defaultIfExceptions ++ ifExceptions) t = .aUnknown) :
    simplifyConditionalBlocks ifExceptions text = .ok text := by
  unfold simplifyConditionalBlocks
  rcases buildAux_clean (defaultIfExceptions ++ ifExceptions) (scanTokens text) h
      initFrame [] ⟨rfl, rfl, rfl⟩ (fun p hp => absurd hp (List.not_mem_nil p)) with
    ⟨_, heq⟩ | ⟨top2, ps2, heq, hc1, hc2⟩
  · simp only [heq]
    simp [initFrame, spansAux_nil, applyDel]
  · simp only [heq, collapseStack_clean ps2 top2 hc1.1 hc1.2.2 hc2]
    obtain ⟨s, hs⟩ := renderAux_spine (ps2.map fun p => (p.kind, p.startT))
      (closeFrame top2 none)
      (by
        have : closeFrame top2 none = CTree.node top2.kind top2.startT none none [] [] := by
          simp [closeFrame, hc1.1, hc1.2.1, hc1.2.2]
        rw [this]
        exact renderAux_ok_leaf top2.kind top2.startT)
      (2 * text.length + 4) 9
    rw [hs]

/-- Witness for C8 at a concrete line containing one unknown conditional. -/
theorem c8_idempotent_witness :
    (∀ t ∈ scanTokens "x \\ifabc y".toList,
      classifyTok (defaultIfExceptions ++ []) t = TokAct.aSkip ∨
      classifyTok (defaultIfExceptions ++ []) t = TokAct.aUnknown) ∧
    simplifyConditionalBlocks [] "x \\ifabc y".toList = .ok "x \\ifabc y".toList :=
  ⟨by decide, c8_idempotent [] "x \\ifabc y".toList (by decide)⟩
